import Mathlib

/-!
Verification of the `toc_generator.py` table-of-contents generator.

The embedding works over `List Char` (a Python `str` is its list of
characters; `String.data` converts literals).  A markdown file is modelled
as the list of its lines (as produced by Python file iteration, each line
normally keeping its trailing newline), wrapped in `Except` to model the
fallible read performed by `find_headers` via `file.open()`.  A `Path` is
modelled by the path of the file relative to the current working directory
(the fixed base against which `get_relative_link` resolves paths), since
the only observation the program makes of a path is
`file.relative_to(Path.cwd())`.

Character classes: Python's Unicode-aware `\w`, `\s`, `str.lower` and
`str.strip()` are modelled with Lean's native character classifiers
(`Char.isAlphanum`, `Char.isWhitespace`, `Char.toLower`), which agree with
Python on the ASCII repertoire.
-/

/-- Model of Python regex class `\w` (word character): alphanumeric or
underscore. -/
def isWordChar (c : Char) : Bool :=
  c.isAlphanum || c = '_'

/-- Model of Python regex class `\s` (whitespace). -/
def isSpaceChar (c : Char) : Bool :=
  c.isWhitespace

/-- Characters kept by `re.sub(r"[^\w\s-]", "", ...)`: word characters,
whitespace, or the hyphen. -/
def keepChar (c : Char) : Bool :=
  isWordChar c || isSpaceChar c || c = '-'

/-- Characters matched by the regex class `[-\s]`. -/
def isDashOrSpace (c : Char) : Bool :=
  c = '-' || isSpaceChar c

/-- Model of `re.sub(r"[-\s]+", "-", s)`: replace every maximal run of
hyphens/whitespace by a single hyphen.  The boolean flag records whether the
previous character belonged to such a run (so the run has already emitted
its single `'-'`). -/
def collapseAux : Bool → List Char → List Char
  | _, [] => []
  | inRun, c :: cs =>
    if isDashOrSpace c then
      if inRun then collapseAux true cs
      else '-' :: collapseAux true cs
    else c :: collapseAux false cs

/-- Model of Python `s.strip(chars)` restricted to a character predicate:
drop matching characters from both ends of the list. -/
def pyStripWhile (p : Char → Bool) (s : List Char) : List Char :=
  (((s.dropWhile p).reverse.dropWhile p)).reverse

/-- Characters stripped by `.strip("-_")`. -/
def isDashOrUnderscore (c : Char) : Bool :=
  c = '-' || c = '_'

/-- Model of `TableOfContents.slugify` (src/toc_generator.py:131-142):
`text = re.sub(r"[^\w\s-]", "", text.lower())` followed by
`re.sub(r"[-\s]+", "-", text).strip("-_")`. -/
def slugify (text : List Char) : List Char :=
  pyStripWhile isDashOrUnderscore
    (collapseAux false ((text.map Char.toLower).filter keepChar))

/-- Model of the spec's wording of the slugification algorithm: lowercase
the text; remove every character that is not a word character, whitespace,
or hyphen; then collapse every run of hyphens/whitespace into a single
hyphen (written here by literally consuming each run with `dropWhile`);
finally strip leading/trailing hyphens and underscores. -/
def collapseRuns : List Char → List Char
  | [] => []
  | c :: cs =>
    if isDashOrSpace c then '-' :: collapseRuns (cs.dropWhile isDashOrSpace)
    else c :: collapseRuns cs
  termination_by l => l.length
  decreasing_by
    all_goals simp
    exact Nat.lt_succ_of_le (List.dropWhile_sublist isDashOrSpace).length_le

/-- Spec-worded slugifier, to be compared with `slugify` (which is read off
the two regex substitutions in the source). -/
def slugifySpec (text : List Char) : List Char :=
  pyStripWhile isDashOrUnderscore
    (collapseRuns ((text.map Char.toLower).filter keepChar))

/-- Error raised when a source file cannot be opened, read or decoded
(the spec's `SourceUnreadable`). -/
inductive ReadError
  | sourceUnreadable
deriving DecidableEq

/-- Model of a `Path` handed to `TableOfContents`: its path relative to the
current working directory, and the outcome of reading its lines. -/
structure Source where
  relPath : List Char
  content : Except ReadError (List (List Char))

/-- Model of the `TableOfContents` object state after `__init__`. -/
structure TableOfContents where
  source : List Source
  title : List Char
  header_levels : Int

/-- Default table title. -/
def DEFAULT_TITLE : List Char := "Table of contents".data

/-- Default maximum header level. -/
def DEFAULT_HEADER_LEVELS : Int := 3

/-- Spaces per indentation level. -/
def SPACES_INDENTATION : Nat := 4

/-- Model of the property `has_multiple_sources`:
`len(self.source) > 1`. -/
def has_multiple_sources (t : TableOfContents) : Bool :=
  t.source.length > 1

/-- Model of `row.startswith("#")`. -/
def startsWithHash : List Char → Bool
  | [] => false
  | c :: _ => c = '#'

/-- Model of `row.count("#")`: number of occurrences of `'#'`. -/
def countHash (row : List Char) : Nat :=
  row.countP (fun c => c = '#')

/-- The filter applied by `find_headers` to each row:
`row.startswith("#") and row.count("#") <= self.header_levels`. -/
def headerPred (header_levels : Int) (row : List Char) : Bool :=
  startsWithHash row && (countHash row : Int) ≤ header_levels

/-- Model of `find_headers` (src/toc_generator.py:97-109): read the file's
rows and yield those satisfying `headerPred`.  A failing read propagates. -/
def find_headers (header_levels : Int) (file : Source) :
    Except ReadError (List (List Char)) :=
  file.content.map (fun rows => rows.filter (headerPred header_levels))

/-- Model of Python `str.strip()` with no argument: strip whitespace from
both ends. -/
def pyStrip (s : List Char) : List Char :=
  pyStripWhile (fun c => c.isWhitespace) s

/-- Model of `get_relative_link` helpers: `urllib.parse.quote` keeps the
characters that are always safe (ASCII alphanumerics and `_.-~`) plus the
default `safe='/'`. -/
def quoteSafe (c : Char) : Bool :=
  c.isAlphanum || c = '_' || c = '.' || c = '-' || c = '~' || c = '/'

/-- UTF-8 encoding of a character, as a list of byte values. -/
def utf8Bytes (c : Char) : List Nat :=
  let n := c.toNat
  if n < 128 then [n]
  else if n < 2048 then [192 + n / 64, 128 + n % 64]
  else if n < 65536 then [224 + n / 4096, 128 + (n / 64) % 64, 128 + n % 64]
  else [240 + n / 262144, 128 + (n / 4096) % 64, 128 + (n / 64) % 64,
        128 + n % 64]

/-- Uppercase hexadecimal digit, as used by `urllib.parse.quote`. -/
def hexDigit (n : Nat) : Char :=
  "0123456789ABCDEF".data.getD n '0'

/-- Model of `urllib.parse.quote(s)`: safe characters pass through, every
other character is replaced by the percent-encoding of its UTF-8 bytes. -/
def pyQuote (s : List Char) : List Char :=
  s.flatMap (fun c =>
    if quoteSafe c then [c]
    else (utf8Bytes c).flatMap (fun b => ['%', hexDigit (b / 16), hexDigit (b % 16)]))

/-- Model of `get_relative_link` (src/toc_generator.py:144-153):
`parse.quote(str(file.relative_to(Path.cwd())))`.  A `Source` stores
exactly its cwd-relative path, so `relative_to(Path.cwd())` is the
projection `Source.relPath`. -/
def get_relative_link (file : Source) : List Char :=
  pyQuote file.relPath

/-- Model of `generate_item` (src/toc_generator.py:111-129). -/
def generate_item (header : List Char) (file : Option Source) : List Char :=
  let indentation_level := countHash header - 1
  let indentation := List.replicate (SPACES_INDENTATION * indentation_level) ' '
  let header_text := pyStrip (header.filter (fun c => !(c = '#')))
  let anchor := slugify header_text
  match file with
  | some f =>
      indentation ++ "- [".data ++ header_text ++ "](./".data ++
        get_relative_link f ++ "#".data ++ anchor ++ ")\n".data
  | none =>
      indentation ++ "- [".data ++ header_text ++ "](#".data ++
        anchor ++ ")\n".data

/-- The double loop of `generate_list` (src/toc_generator.py:82-95): for
each file, for each header found in it, append the generated item to the
accumulated content; a failing read aborts the whole render. -/
def generate_list_aux (t : TableOfContents) :
    List Char → List Source → Except ReadError (List Char)
  | content, [] => Except.ok content
  | content, file :: rest =>
    match find_headers t.header_levels file with
    | Except.error e => Except.error e
    | Except.ok headers =>
        generate_list_aux t
          (headers.foldl
            (fun acc header =>
              acc ++ (if has_multiple_sources t then generate_item header (some file)
                      else generate_item header none))
            content)
          rest

/-- Model of `generate_list`: start from the title line
`f"## {self.title}\n"` and run the double loop. -/
def generate_list (t : TableOfContents) : Except ReadError (List Char) :=
  generate_list_aux t ("## ".data ++ t.title ++ "\n".data) t.source

/-- A source whose read succeeds with the given rows. -/
def mkSource (relPath : List Char) (rows : List (List Char)) : Source :=
  ⟨relPath, Except.ok rows⟩

/-- A `TableOfContents` over readable sources, each given as a pair of its
cwd-relative path and its rows. -/
def mkToc (srcs : List (List Char × List (List Char)))
    (title : List Char) (header_levels : Int) : TableOfContents :=
  ⟨srcs.map (fun s => mkSource s.1 s.2), title, header_levels⟩

/-- Length of the run of space characters at the head of a rendered
line. -/
def leadingSpaces (s : List Char) : Nat :=
  (s.takeWhile (fun c => c = ' ')).length

/-- No two adjacent characters of the list both match `[-\s]` (the shape
left behind by the run-collapsing substitution). -/
def NoDashRun (l : List Char) : Prop :=
  l.Chain' (fun a b => ¬(isDashOrSpace a = true ∧ isDashOrSpace b = true))

/-!  Helper lemmas. -/

theorem char_toNat_ofNat_valid (n : Nat) (h : n.isValidChar) :
    (Char.ofNat n).toNat = n := by
  rw [Char.ofNat, dif_pos h]
  rfl

theorem toLower_idem (c : Char) : c.toLower.toLower = c.toLower := by
  show Char.toLower (Char.toLower c) = Char.toLower c
  unfold Char.toLower
  by_cases h : c.toNat ≥ 65 ∧ c.toNat ≤ 90
  · rw [if_pos h]
    have hv : Nat.isValidChar (c.toNat + 32) := Or.inl (by omega)
    have ht := char_toNat_ofNat_valid _ hv
    rw [if_neg (fun h' => by rw [ht] at h'; omega)]
  · rw [if_neg h, if_neg h]

theorem map_eq_self_of_mem {f : Char → Char} {l : List Char}
    (h : ∀ c ∈ l, f c = c) : l.map f = l := by
  induction l with
  | nil => rfl
  | cons x xs ih =>
    simp only [List.map_cons, h x (List.mem_cons_self x xs),
      ih (fun c hc => h c (List.mem_cons_of_mem x hc))]

theorem dropWhile_head_false (p : Char → Bool) (l : List Char) {c : Char}
    {cs : List Char} (h : l.dropWhile p = c :: cs) : p c = false := by
  have := List.head?_dropWhile_not p l
  rw [h] at this
  simpa using this

theorem getLast?_dropWhile (p : Char → Bool) :
    ∀ l : List Char, l.dropWhile p ≠ [] →
      (l.dropWhile p).getLast? = l.getLast? := by
  intro l
  induction l with
  | nil => simp
  | cons x xs ih =>
    intro hne
    by_cases hx : p x
    · rw [List.dropWhile_cons_of_pos hx] at hne ⊢
      rw [ih hne]
      cases xs with
      | nil => simp [List.dropWhile_nil] at hne
      | cons y ys => simp
    · rw [List.dropWhile_cons_of_neg hx]

theorem pyStripWhile_between (p : Char → Bool) (s : List Char) :
    pyStripWhile p s <:+: s := by
  have h1 : List.dropWhile p s <:+ s := List.dropWhile_suffix p
  have h2 : List.dropWhile p (List.dropWhile p s).reverse <:+
      (List.dropWhile p s).reverse := List.dropWhile_suffix p
  have h3 : (List.dropWhile p (List.dropWhile p s).reverse).reverse <+:
      List.dropWhile p s := by
    have := List.reverse_prefix.mpr h2
    simpa using this
  have h4 := List.IsPrefix.isInfix h3
  have h5 := List.IsSuffix.isInfix h1
  exact List.IsInfix.trans h4 h5

theorem pyStripWhile_head_false (p : Char → Bool) (s : List Char) {c : Char}
    {cs : List Char} (h : pyStripWhile p s = c :: cs) : p c = false := by
  unfold pyStripWhile at h
  have hb : (List.dropWhile p (List.dropWhile p s).reverse).getLast? = some c := by
    rw [← List.head?_reverse, h]
    rfl
  have hne : List.dropWhile p (List.dropWhile p s).reverse ≠ [] := by
    intro hnil
    rw [hnil] at h
    exact List.noConfusion h
  rw [getLast?_dropWhile p _ hne, List.getLast?_reverse] at hb
  cases hd : List.dropWhile p s with
  | nil => rw [hd] at hb; exact absurd hb (by simp)
  | cons d ds =>
    rw [hd] at hb
    simp only [List.head?_cons, Option.some.injEq] at hb
    rw [← hb]
    exact dropWhile_head_false p s hd

theorem pyStripWhile_getLast_false (p : Char → Bool) (s : List Char) {c : Char}
    (h : (pyStripWhile p s).getLast? = some c) : p c = false := by
  unfold pyStripWhile at h
  rw [List.getLast?_reverse] at h
  cases hd : List.dropWhile p (List.dropWhile p s).reverse with
  | nil => rw [hd] at h; exact absurd h (by simp)
  | cons d ds =>
    rw [hd] at h
    simp only [List.head?_cons, Option.some.injEq] at h
    rw [← h]
    exact dropWhile_head_false p _ hd

theorem pyStripWhile_idem (p : Char → Bool) (s : List Char) :
    pyStripWhile p (pyStripWhile p s) = pyStripWhile p s := by
  have h1 : (pyStripWhile p s).dropWhile p = pyStripWhile p s := by
    cases hc : pyStripWhile p s with
    | nil => simp
    | cons c cs =>
      exact List.dropWhile_cons_of_neg (by simp [pyStripWhile_head_false p s hc])
  have h2 : (pyStripWhile p s).reverse.dropWhile p = (pyStripWhile p s).reverse := by
    cases hc : (pyStripWhile p s).reverse with
    | nil => simp
    | cons c cs =>
      have hlast : (pyStripWhile p s).getLast? = some c := by
        rw [← List.head?_reverse, hc]
        rfl
      exact List.dropWhile_cons_of_neg
        (by simp [pyStripWhile_getLast_false p s hlast])
  show (((pyStripWhile p s).dropWhile p).reverse.dropWhile p).reverse = _
  rw [h1, h2, List.reverse_reverse]

theorem mem_collapseAux {c : Char} :
    ∀ (l : List Char) (b : Bool), c ∈ collapseAux b l →
      c = '-' ∨ (c ∈ l ∧ isDashOrSpace c = false) := by
  intro l
  induction l with
  | nil => intro b h; simp [collapseAux] at h
  | cons x xs ih =>
    intro b h
    by_cases hx : isDashOrSpace x
    · cases b with
      | true =>
        simp only [collapseAux, if_pos hx] at h
        rcases ih true h with h' | ⟨hm, hd⟩
        · exact Or.inl h'
        · exact Or.inr ⟨List.mem_cons_of_mem x hm, hd⟩
      | false =>
        simp only [collapseAux, if_pos hx] at h
        rcases List.mem_cons.mp h with h' | h'
        · exact Or.inl h'
        · rcases ih true h' with h'' | ⟨hm, hd⟩
          · exact Or.inl h''
          · exact Or.inr ⟨List.mem_cons_of_mem x hm, hd⟩
    · simp only [collapseAux, if_neg hx] at h
      rcases List.mem_cons.mp h with h' | h'
      · exact Or.inr ⟨h' ▸ List.mem_cons_self x xs, h' ▸ (by simpa using hx)⟩
      · rcases ih false h' with h'' | ⟨hm, hd⟩
        · exact Or.inl h''
        · exact Or.inr ⟨List.mem_cons_of_mem x hm, hd⟩

theorem collapseAux_true_head :
    ∀ (l : List Char) {c : Char} {cs : List Char},
      collapseAux true l = c :: cs → isDashOrSpace c = false := by
  intro l
  induction l with
  | nil => intro c cs h; exact List.noConfusion h
  | cons x xs ih =>
    intro c cs h
    by_cases hx : isDashOrSpace x
    · rw [collapseAux, if_pos hx] at h
      exact ih h
    · rw [collapseAux, if_neg hx] at h
      rw [← (List.cons.injEq ..).mp h |>.1]
      simpa using hx

theorem collapse_noDashRun : ∀ (l : List Char) (b : Bool), NoDashRun (collapseAux b l) := by
  intro l
  induction l with
  | nil => intro b; cases b <;> exact List.chain'_nil
  | cons x xs ih =>
    intro b
    by_cases hx : isDashOrSpace x
    · cases b with
      | true => rw [collapseAux, if_pos hx]; exact ih true
      | false =>
        rw [collapseAux, if_pos hx]
        refine List.chain'_cons'.mpr ⟨?_, ih true⟩
        intro y hy hcon
        cases hcc : collapseAux true xs with
        | nil => rw [hcc] at hy; simp at hy
        | cons z zs =>
          rw [hcc] at hy
          have hz : z = y := by simpa using hy
          have hzz := collapseAux_true_head xs hcc
          rw [hz, hcon.2] at hzz
          exact Bool.noConfusion hzz
    · rw [collapseAux, if_neg hx]
      refine List.chain'_cons'.mpr ⟨?_, ih false⟩
      intro y _ hcon
      exact hx hcon.1

theorem collapse_fix :
    ∀ l : List Char, (∀ c ∈ l, isDashOrSpace c = true → c = '-') →
      NoDashRun l → collapseAux false l = l := by
  intro l
  induction l with
  | nil => intro _ _; rfl
  | cons x xs ih =>
    intro h1 h2
    have hxs1 : ∀ c ∈ xs, isDashOrSpace c = true → c = '-' :=
      fun c hc => h1 c (List.mem_cons_of_mem x hc)
    have hxs2 : NoDashRun xs := h2.tail
    have hrec : collapseAux false xs = xs := ih hxs1 hxs2
    by_cases hx : isDashOrSpace x
    · have hxd : x = '-' := h1 x (List.mem_cons_self x xs) hx
      subst hxd
      cases xs with
      | nil => simp [collapseAux, hx]
      | cons y ys =>
        have hy : isDashOrSpace y = false := by
          have hr := (List.chain'_cons.mp h2).1
          by_cases hyd : isDashOrSpace y
          · exact absurd ⟨hx, hyd⟩ hr
          · simpa using hyd
        have hys : collapseAux false ys = ys := by
          rw [collapseAux, if_neg (by simp [hy])] at hrec
          exact ((List.cons.injEq ..).mp hrec).2
        simp [collapseAux, hx, hy, hys]
    · rw [collapseAux, if_neg hx, hrec]

theorem slug_chars (text : List Char) :
    ∀ c ∈ slugify text,
      Char.toLower c = c ∧ keepChar c = true ∧
        (isDashOrSpace c = true → c = '-') := by
  intro c hc
  have hsub : c ∈ collapseAux false ((text.map Char.toLower).filter keepChar) :=
    ((pyStripWhile_between isDashOrUnderscore _).sublist.subset) hc
  rcases mem_collapseAux _ false hsub with hdash | ⟨hmem, hnd⟩
  · subst hdash
    exact ⟨by decide, by decide, fun _ => rfl⟩
  · have hkeep : keepChar c = true := (List.mem_filter.mp hmem).2
    have hmap : c ∈ text.map Char.toLower := (List.mem_filter.mp hmem).1
    rcases List.mem_map.mp hmap with ⟨o, _, ho⟩
    refine ⟨?_, hkeep, fun hd => absurd hd (by simp [hnd])⟩
    rw [← ho]
    exact toLower_idem o

theorem slug_noDashRun (text : List Char) : NoDashRun (slugify text) :=
  List.Chain'.infix (collapse_noDashRun _ false)
    (pyStripWhile_between isDashOrUnderscore _)

theorem collapseAux_true_eq (l : List Char) :
    collapseAux true l = collapseAux false (l.dropWhile isDashOrSpace) := by
  induction l with
  | nil => rfl
  | cons x xs ih =>
    by_cases hx : isDashOrSpace x
    · rw [List.dropWhile_cons_of_pos hx, ← ih]
      simp [collapseAux, hx]
    · rw [List.dropWhile_cons_of_neg hx]
      simp [collapseAux, hx]

theorem collapseRuns_eq (l : List Char) : collapseRuns l = collapseAux false l := by
  induction l using collapseRuns.induct with
  | case1 => simp [collapseRuns, collapseAux]
  | case2 c cs hc ih =>
    rw [collapseRuns, if_pos hc, ih, ← collapseAux_true_eq]
    simp [collapseAux, hc]
  | case3 c cs hc ih =>
    rw [collapseRuns, if_neg hc, ih]
    simp [collapseAux, hc]

theorem foldl_item_eq (t : TableOfContents) (file : Source) :
    ∀ (hs : List (List Char)) (acc : List Char),
      hs.foldl
        (fun acc header =>
          acc ++ (if has_multiple_sources t then generate_item header (some file)
                  else generate_item header none)) acc
        = acc ++ (hs.map (fun header =>
            if has_multiple_sources t then generate_item header (some file)
            else generate_item header none)).flatten := by
  intro hs
  induction hs with
  | nil => intro acc; simp
  | cons x xs ih =>
    intro acc
    simp only [List.foldl_cons, List.map_cons, List.flatten_cons, ih,
      List.append_assoc]

theorem generate_list_aux_cons_ok (t : TableOfContents) (file : Source)
    (rest : List Source) (content : List Char) (headers : List (List Char))
    (h : find_headers t.header_levels file = Except.ok headers) :
    generate_list_aux t content (file :: rest) =
      generate_list_aux t
        (headers.foldl
          (fun acc header =>
            acc ++ (if has_multiple_sources t then generate_item header (some file)
                    else generate_item header none)) content) rest := by
  rw [generate_list_aux, h]

theorem generate_list_aux_mk (t : TableOfContents) :
    ∀ (srcs : List (List Char × List (List Char))) (acc : List Char),
      generate_list_aux t acc (srcs.map (fun s => mkSource s.1 s.2)) =
        Except.ok (acc ++ (srcs.map (fun s =>
          ((s.2.filter (headerPred t.header_levels)).map (fun h =>
            if has_multiple_sources t then generate_item h (some (mkSource s.1 s.2))
            else generate_item h none)).flatten)).flatten) := by
  intro srcs
  induction srcs with
  | nil => intro acc; simp [generate_list_aux]
  | cons s ss ih =>
    intro acc
    simp only [List.map_cons]
    rw [generate_list_aux_cons_ok t (mkSource s.1 s.2) _ acc
      (s.2.filter (headerPred t.header_levels)) rfl]
    rw [foldl_item_eq t (mkSource s.1 s.2), ih]
    simp [List.append_assoc]

theorem has_multiple_sources_mk (srcs : List (List Char × List (List Char)))
    (title : List Char) (hl : Int) :
    has_multiple_sources (mkToc srcs title hl) = decide (1 < srcs.length) := by
  simp [has_multiple_sources, mkToc]

theorem generate_list_mk (srcs : List (List Char × List (List Char)))
    (title : List Char) (hl : Int) :
    generate_list (mkToc srcs title hl) =
      Except.ok ("## ".data ++ title ++ "\n".data ++ (srcs.map (fun s =>
        ((s.2.filter (headerPred hl)).map (fun h =>
          if 1 < srcs.length then generate_item h (some (mkSource s.1 s.2))
          else generate_item h none)).flatten)).flatten) := by
  show generate_list_aux (mkToc srcs title hl) _ ((mkToc srcs title hl).source) = _
  have hsrc : (mkToc srcs title hl).source = srcs.map (fun s => mkSource s.1 s.2) := rfl
  rw [hsrc, generate_list_aux_mk]
  have hm : ∀ (h : List Char) (f : Source),
      (if has_multiple_sources (mkToc srcs title hl) then generate_item h (some f)
       else generate_item h none) =
      (if 1 < srcs.length then generate_item h (some f) else generate_item h none) := by
    intro h f
    rw [has_multiple_sources_mk]
    by_cases hlen : 1 < srcs.length
    · rw [if_pos hlen, if_pos (by simp [hlen])]
    · rw [if_neg hlen, if_neg (by simp [hlen])]
  simp only [hm]
  rfl

theorem flatten_map_flatten {α : Type} (g : α → List (List Char)) :
    ∀ l : List α, ((l.map g).flatten).flatten =
      (l.map (fun s => (g s).flatten)).flatten := by
  intro l
  induction l with
  | nil => rfl
  | cons x xs ih => simp [ih]

theorem generate_item_none_shape (h : List Char) :
    ∃ ind text, generate_item h none =
      ind ++ "- [".data ++ text ++ "](#".data ++ slugify text ++ ")\n".data :=
  ⟨_, _, rfl⟩

theorem generate_item_some_shape (h : List Char) (f : Source) :
    ∃ ind text, generate_item h (some f) =
      ind ++ "- [".data ++ text ++ "](./".data ++ get_relative_link f ++
        "#".data ++ slugify text ++ ")\n".data :=
  ⟨_, _, rfl⟩

theorem one_le_countHash_of_startsWithHash {row : List Char}
    (h : startsWithHash row = true) : 1 ≤ countHash row := by
  cases row with
  | nil => exact absurd h (by simp [startsWithHash])
  | cons c cs =>
    have hc : c = '#' := by simpa [startsWithHash] using h
    subst hc
    simp [countHash, List.countP_cons]

theorem headerPred_eq_false_of_lt_one {hl : Int} (h : hl < 1)
    (row : List Char) : headerPred hl row = false := by
  by_cases hs : startsWithHash row = true
  · have hc := one_le_countHash_of_startsWithHash hs
    have : ¬((countHash row : Int) ≤ hl) := by
      have : (1 : Int) ≤ (countHash row : Int) := by exact_mod_cast hc
      omega
    simp [headerPred, this]
  · simp [headerPred, Bool.eq_false_iff.mpr hs]

theorem flatten_map_const_nil {α : Type} :
    ∀ l : List α, (l.map (fun _ => ([] : List Char))).flatten = [] := by
  intro l
  induction l with
  | nil => rfl
  | cons x xs ih => simp [ih]

theorem generate_list_aux_error (t : TableOfContents) :
    ∀ (files : List Source) (acc : List Char),
      (∃ f ∈ files, ∃ e, f.content = Except.error e) →
      ∃ e, generate_list_aux t acc files = Except.error e := by
  intro files
  induction files with
  | nil =>
    intro acc h
    rcases h with ⟨f, hf, _⟩
    exact absurd hf (List.not_mem_nil f)
  | cons x xs ih =>
    intro acc h
    cases hc : x.content with
    | error e =>
      refine ⟨e, ?_⟩
      rw [generate_list_aux]
      have : find_headers t.header_levels x = Except.error e := by
        simp [find_headers, hc, Except.map]
      rw [this]
    | ok rows =>
      have hfh : find_headers t.header_levels x =
          Except.ok (rows.filter (headerPred t.header_levels)) := by
        simp [find_headers, hc, Except.map]
      rcases h with ⟨f, hf, e, he⟩
      rcases List.mem_cons.mp hf with rfl | hmem
      · rw [hc] at he
        exact absurd he (by simp)
      · rw [generate_list_aux_cons_ok t x xs acc _ hfh]
        exact ih _ ⟨f, hmem, e, he⟩

theorem takeWhile_space_replicate (rest : List Char) :
    ∀ n : Nat, ((List.replicate n ' ' ++ '-' :: rest).takeWhile
      (fun c => c = ' ')).length = n := by
  intro n
  induction n with
  | zero => simp [List.takeWhile]
  | succ m ih =>
    rw [List.replicate_succ, List.cons_append]
    simp [List.takeWhile_cons, ih]

theorem pyStripWhile_eq_nil {p : Char → Bool} {l : List Char}
    (h : ∀ c ∈ l, p c = true) : pyStripWhile p l = [] := by
  unfold pyStripWhile
  have h1 : l.dropWhile p = [] := List.dropWhile_eq_nil_iff.mpr h
  rw [h1]
  rfl

/-- C1: a line is yielded by `find_headers` iff it starts with `'#'` and its
total `'#'` count is at most `header_levels`; qualifying lines are returned
verbatim (excluded entirely otherwise, never truncated). -/
theorem claim_C1 (hl : Int) (p : List Char) (rows : List (List Char)) :
    find_headers hl (mkSource p rows) = Except.ok (rows.filter (headerPred hl)) ∧
    ∀ row, (row ∈ rows.filter (headerPred hl) ↔
      row ∈ rows ∧ startsWithHash row = true ∧ (countHash row : Int) ≤ hl) := by
  refine ⟨rfl, fun row => ?_⟩
  rw [List.mem_filter]
  constructor
  · rintro ⟨hm, hp⟩
    simp only [headerPred, Bool.and_eq_true, decide_eq_true_eq] at hp
    exact ⟨hm, hp.1, hp.2⟩
  · rintro ⟨hm, h1, h2⟩
    exact ⟨hm, by simp [headerPred, h1, h2]⟩

/-- C2 counterexample: for the recognized heading line `"## B\n"`, the
rendered item carries 4 leading spaces, while the claim's formula
`indent_width * (depth - 1)` with `depth = countHash - 1` demands 0. -/
theorem claim_C2_counterexample :
    ¬ (leadingSpaces (generate_item "## B\n".data none) =
        SPACES_INDENTATION * ((countHash "## B\n".data - 1) - 1)) := by
  decide

/-- Leading-space count of a rendered item line. -/
theorem leadingSpaces_item (n : Nat) (l : List Char) :
    leadingSpaces (List.replicate n ' ' ++ ('-' :: ' ' :: '[' :: l)) = n :=
  takeWhile_space_replicate (' ' :: '[' :: l) n

/-- C2 (amended): the indentation level used by `generate_item` is the
total marker count minus 1, and the rendered item is prefixed by exactly
`indent_width * indentation_level` space characters (indent_width = 4). -/
theorem claim_C2_amended (header : List Char) (file : Option Source) :
    leadingSpaces (generate_item header file) =
      SPACES_INDENTATION * (countHash header - 1) := by
  cases file with
  | none =>
    simp only [generate_item, List.append_assoc, List.cons_append,
      List.nil_append]
    exact leadingSpaces_item _ _
  | some f =>
    simp only [generate_item, List.append_assoc, List.cons_append,
      List.nil_append]
    exact leadingSpaces_item _ _

/-- C3: when the table has exactly one source each emitted item links to a
bare `#anchor` target, and when it has two or more sources each emitted
item links to `./relative-path#anchor`, with the relative path resolved
against the fixed base (cwd) and percent-encoded; no bare anchor is emitted
in the multi-source case. -/
theorem claim_C3 (srcs : List (List Char × List (List Char)))
    (title : List Char) (hl : Int) :
    ∃ items : List (List Char),
      generate_list (mkToc srcs title hl) =
        Except.ok ("## ".data ++ title ++ "\n".data ++ items.flatten) ∧
      (srcs.length = 1 → ∀ item ∈ items, ∃ ind text,
        item = ind ++ "- [".data ++ text ++ "](#".data ++
          slugify text ++ ")\n".data) ∧
      (1 < srcs.length → ∀ item ∈ items, ∃ ind text s, s ∈ srcs ∧
        item = ind ++ "- [".data ++ text ++ "](./".data ++
          get_relative_link (mkSource s.1 s.2) ++ "#".data ++
          slugify text ++ ")\n".data) := by
  refine ⟨(srcs.map (fun s => (s.2.filter (headerPred hl)).map (fun h =>
    if 1 < srcs.length then generate_item h (some (mkSource s.1 s.2))
    else generate_item h none))).flatten, ?_, ?_, ?_⟩
  · rw [generate_list_mk, flatten_map_flatten]
  · intro hlen item hitem
    have hnot : ¬(1 < srcs.length) := by omega
    rw [List.mem_flatten] at hitem
    rcases hitem with ⟨lst, hlst, hmem⟩
    rcases List.mem_map.mp hlst with ⟨s, hs, rfl⟩
    rcases List.mem_map.mp hmem with ⟨h, hh, rfl⟩
    rw [if_neg hnot]
    exact generate_item_none_shape h
  · intro hlen item hitem
    rw [List.mem_flatten] at hitem
    rcases hitem with ⟨lst, hlst, hmem⟩
    rcases List.mem_map.mp hlst with ⟨s, hs, rfl⟩
    rcases List.mem_map.mp hmem with ⟨h, hh, rfl⟩
    rw [if_pos hlen]
    rcases generate_item_some_shape h (mkSource s.1 s.2) with ⟨ind, text, heq⟩
    exact ⟨ind, text, s, hs, heq⟩

/-- C4: `slugify` implements exactly the spec's algorithm (lowercase,
remove non word/whitespace/hyphen characters, collapse hyphen/whitespace
runs to a single hyphen, strip leading/trailing hyphens and underscores),
and `slugify "Hello World" = "hello-world" = slugify "hello world"`. -/
theorem claim_C4 :
    (∀ text : List Char, slugify text = slugifySpec text) ∧
    slugify "Hello World".data = "hello-world".data ∧
    slugify "hello world".data = "hello-world".data := by
  refine ⟨fun text => ?_, rfl, rfl⟩
  unfold slugify slugifySpec
  rw [collapseRuns_eq]

/-- C5: one source with recognized headings `"# A"` and `"## B"`, default
title, depth bound and indent width, renders exactly
`"## Table of contents\n- [A](#a)\n    - [B](#b)\n"`. -/
theorem claim_C5 :
    generate_list (mkToc [("README.md".data, ["# A\n".data, "## B\n".data])]
        DEFAULT_TITLE DEFAULT_HEADER_LEVELS) =
      Except.ok "## Table of contents\n- [A](#a)\n    - [B](#b)\n".data := rfl

/-- C6: `slugify` is idempotent. -/
theorem claim_C6 (x : List Char) : slugify (slugify x) = slugify x := by
  have hchars := slug_chars x
  have hmap : (slugify x).map Char.toLower = slugify x :=
    map_eq_self_of_mem (fun c hc => (hchars c hc).1)
  have hfilter : (slugify x).filter keepChar = slugify x :=
    List.filter_eq_self.mpr (fun c hc => (hchars c hc).2.1)
  have hcoll : collapseAux false (slugify x) = slugify x :=
    collapse_fix _ (fun c hc => (hchars c hc).2.2) (slug_noDashRun x)
  show pyStripWhile isDashOrUnderscore
      (collapseAux false (((slugify x).map Char.toLower).filter keepChar)) =
    slugify x
  rw [hmap, hfilter, hcoll]
  exact pyStripWhile_idem _ _

/-- C7: the render output is exactly the title line `"## {title}\n"`
followed by one item per recognized heading, in source order and then
in-source order -- the items are never reordered. -/
theorem claim_C7 (srcs : List (List Char × List (List Char)))
    (title : List Char) (hl : Int) :
    generate_list (mkToc srcs title hl) =
      Except.ok ("## ".data ++ title ++ "\n".data ++ (srcs.map (fun s =>
        ((s.2.filter (headerPred hl)).map (fun h =>
          if 1 < srcs.length then generate_item h (some (mkSource s.1 s.2))
          else generate_item h none)).flatten)).flatten) :=
  generate_list_mk srcs title hl

/-- C8: if any source's read fails, the error propagates and the whole
render aborts with no table-of-contents string produced. -/
theorem claim_C8 (t : TableOfContents)
    (h : ∃ f ∈ t.source, ∃ e, f.content = Except.error e) :
    ∃ e, generate_list t = Except.error e :=
  generate_list_aux_error t t.source _ h

/-- C8 witness: a table with one unreadable source aborts with an error. -/
theorem claim_C8_witness :
    (∃ f ∈ [(⟨"bad.md".data, Except.error ReadError.sourceUnreadable⟩ : Source)],
      ∃ e, f.content = Except.error e) ∧
    ∃ e, generate_list
        ⟨[⟨"bad.md".data, Except.error ReadError.sourceUnreadable⟩],
          "T".data, 3⟩ = Except.error e :=
  ⟨⟨⟨"bad.md".data, Except.error ReadError.sourceUnreadable⟩, by simp,
      ReadError.sourceUnreadable, rfl⟩,
    claim_C8 ⟨[⟨"bad.md".data, Except.error ReadError.sourceUnreadable⟩],
      "T".data, 3⟩
      ⟨⟨"bad.md".data, Except.error ReadError.sourceUnreadable⟩, by simp,
        ReadError.sourceUnreadable, rfl⟩⟩

/-- C9: if `header_levels < 1`, no line is ever recognized as a heading
(every candidate contains at least one marker), so the output is exactly
the title line. -/
theorem claim_C9 (hl : Int) (h : hl < 1)
    (srcs : List (List Char × List (List Char))) (title : List Char) :
    generate_list (mkToc srcs title hl) =
      Except.ok ("## ".data ++ title ++ "\n".data) := by
  rw [generate_list_mk]
  have hf : ∀ s : List Char × List (List Char),
      s.2.filter (headerPred hl) = [] := fun s =>
    List.filter_eq_nil_iff.mpr
      (fun row _ => by simp [headerPred_eq_false_of_lt_one h row])
  simp [hf, flatten_map_const_nil]

/-- C9 witness: with `header_levels = 0` a source containing a heading
line still renders only the title line. -/
theorem claim_C9_witness :
    ((0 : Int) < 1) ∧
    generate_list (mkToc [("a.md".data, ["# A\n".data])] "T".data 0) =
      Except.ok ("## ".data ++ "T".data ++ "\n".data) :=
  ⟨by decide, claim_C9 0 (by decide) [("a.md".data, ["# A\n".data])] "T".data⟩

/-- C10: a heading line made only of markers and whitespace still produces
one list item, with empty display text and empty anchor; in single-source
mode the emitted line is exactly `"{indentation}- [](#)\n"`. -/
theorem claim_C10 (header : List Char)
    (h : ∀ c ∈ header, c = '#' ∨ c.isWhitespace = true) :
    generate_item header none =
      List.replicate (SPACES_INDENTATION * (countHash header - 1)) ' ' ++
        "- [](#)\n".data := by
  have htext : pyStrip (header.filter (fun c => !(c = '#'))) = [] := by
    apply pyStripWhile_eq_nil
    intro c hc
    have hm := List.mem_filter.mp hc
    rcases h c hm.1 with hcs | hw
    · rw [hcs] at hm
      simp at hm
    · exact hw
  have hrw : generate_item header none =
      List.replicate (SPACES_INDENTATION * (countHash header - 1)) ' ' ++
        "- [".data ++ ([] : List Char) ++ "](#".data ++ slugify [] ++ ")\n".data := by
    simp only [generate_item]
    rw [htext]
  rw [hrw]
  have hsl : slugify ([] : List Char) = [] := rfl
  simp only [hsl, List.append_assoc, List.cons_append, List.nil_append]

/-- C10 witness: the recognized heading line `"#\n"` renders exactly
`"- [](#)\n"`. -/
theorem claim_C10_witness :
    (∀ c ∈ "#\n".data, c = '#' ∨ c.isWhitespace = true) ∧
    generate_item "#\n".data none = "- [](#)\n".data :=
  ⟨by decide, by rw [claim_C10 "#\n".data (by decide)]; rfl⟩
